import Mathlib

/-!
Verification of the KindRewrite server (src/server.js) against its
specification.  Strings are modelled as `List Char`.  The JavaScript regex
replacements `text.replace(/\b(w1|w2|…)\b/gi, repl)` used by the softening
phase (server.js lines 161–175) are embedded by an explicit left-to-right
scanner (`replScan`): at each position the alternatives are tried in order,
a candidate match must be preceded and followed by a word boundary, and on a
match the scanner emits the replacement and resumes after the matched span —
exactly the semantics of a global, case-insensitive regex replace for
patterns (as here) whose alternatives begin and end with word characters.
Case-insensitivity is ASCII case folding (all patterns are ASCII), word
characters are the regex `\w` class, and whitespace is the regex `\s` class.
-/

namespace KindRewrite

/-- The JS regex `\w` class: `[A-Za-z0-9_]`. -/
def isWordChar (c : Char) : Bool :=
  (decide (97 ≤ c.toNat) && decide (c.toNat ≤ 122)) ||
  (decide (65 ≤ c.toNat) && decide (c.toNat ≤ 90)) ||
  (decide (48 ≤ c.toNat) && decide (c.toNat ≤ 57)) ||
  decide (c.toNat = 95)

/-- The JS regex `\s` class (WhiteSpace ∪ LineTerminator), also used by
`String.prototype.trim`. -/
def isJsWs (c : Char) : Bool :=
  let n := c.toNat
  (decide (9 ≤ n) && decide (n ≤ 13)) || decide (n = 32) || decide (n = 160) ||
  decide (n = 0x1680) || (decide (0x2000 ≤ n) && decide (n ≤ 0x200a)) ||
  decide (n = 0x2028) || decide (n = 0x2029) || decide (n = 0x202f) ||
  decide (n = 0x205f) || decide (n = 0x3000) || decide (n = 0xfeff)

/-- Case-insensitive match of a (lower-case, ASCII) pattern word against the
front of the input; returns the input remaining after the match. -/
def matchAlt : List Char → List Char → Option (List Char)
  | [], s => some s
  | _ :: _, [] => none
  | p :: ps, c :: cs => if c.toLower = p then matchAlt ps cs else none

/-- The trailing word boundary `\b` after a match whose last character is a
word character: the rest must be empty or start with a non-word character. -/
def boundaryAfterB : List Char → Bool
  | [] => true
  | c :: _ => !isWordChar c

/-- Try the regex alternatives in order at the current position (the JS
engine's alternation order, backtracking out of an alternative whose
trailing `\b` fails).  Empty alternatives are skipped (none occur). -/
def tryAlts : List (List Char) → List Char → Option (List Char)
  | [], _ => none
  | a :: as, s =>
    match a with
    | [] => tryAlts as s
    | _ :: _ =>
      match matchAlt a s with
      | some rest => if boundaryAfterB rest then some rest else tryAlts as s
      | none => tryAlts as s

/-- Fuel-driven global replace scanner.  `pw` records whether the previous
character of the input was a word character (so a `\b` can sit before the
current position exactly when `pw = false`).  On a match the replacement is
emitted and scanning resumes after the matched span with `pw = true` (every
alternative ends in a word character). -/
def replScanF (alts : List (List Char)) (repl : List Char) :
    Nat → Bool → List Char → List Char
  | 0, _, s => s
  | _ + 1, _, [] => []
  | fuel + 1, pw, c :: cs =>
    if pw then c :: replScanF alts repl fuel (isWordChar c) cs
    else
      match tryAlts alts (c :: cs) with
      | some rest => repl ++ replScanF alts repl fuel true rest
      | none => c :: replScanF alts repl fuel (isWordChar c) cs

/-- `text.replace(/\b(alt1|alt2|…)\b/gi, repl)` on the whole input (the fuel
`s.length` always suffices, see `replScanF_fuel`). -/
def replScan (alts : List (List Char)) (repl : List Char) (pw : Bool)
    (s : List Char) : List Char :=
  replScanF alts repl s.length pw s

/-- One substitution rule: the alternatives of the `\b(…)\b` group and the
replacement text. -/
def applyRule (r : List (List Char) × List Char) (s : List Char) : List Char :=
  replScan r.1 r.2 false s

def strs (l : List String) : List (List Char) := l.map String.data

/-- The fixed ordered rule list of server.js lines 161–172. -/
def aggressivePatterns : List (List (List Char) × List Char) :=
  [ (strs ["stupid", "dumb", "idiotic", "moronic"], "unclear".data),
    (strs ["hate", "despise", "loathe"], "don't prefer".data),
    (strs ["terrible", "awful", "horrible", "atrocious"], "not ideal".data),
    (strs ["never", "always"], "sometimes".data),
    (strs ["useless", "worthless"], "not quite working".data),
    (strs ["waste of time"], "could be optimized".data),
    (strs ["wrong", "incorrect"], "might need adjustment".data),
    (strs ["obviously", "clearly"], "it seems".data),
    (strs ["fail", "failed", "failure"], "didn't work out".data),
    (strs ["ridiculous", "absurd"], "surprising".data) ]

/-- Step 1 of `applyRewriteRules` (server.js lines 174–176): the rules are
applied in list order, each to the output of the previous one. -/
def soften (text : List Char) : List Char :=
  aggressivePatterns.foldl (fun acc r => applyRule r acc) text

/-- `text.replace(/\s+/g, ' ')`, tracking whether the previous character was
whitespace (a run contributes a single space). -/
def collapseWsAux : Bool → List Char → List Char
  | _, [] => []
  | prevWs, c :: cs =>
    if isJsWs c then
      if prevWs then collapseWsAux true cs else ' ' :: collapseWsAux true cs
    else c :: collapseWsAux false cs

def collapseWs (s : List Char) : List Char := collapseWsAux false s

/-- `String.prototype.trim`. -/
def trim (s : List Char) : List Char :=
  ((s.dropWhile isJsWs).reverse.dropWhile isJsWs).reverse

/-- `text.charAt(0).toUpperCase()` (ASCII case mapping, as in the spec's
"ASCII capitalization of the first character").  JS indexes UTF-16 code
units; the model indexes characters, which coincides for the
basic-multilingual-plane text this server manipulates. -/
def charAt0Upper : List Char → List Char
  | [] => []
  | c :: _ => [c.toUpper]

/-- `text.slice(1)`. -/
def slice1 (s : List Char) : List Char := s.drop 1

/-- server.js lines 197–206. -/
def wrapProfessional (text : List Char) : List Char :=
  let intro := "I wanted to share some feedback regarding this matter. ".data
  let outro := " I believe addressing this could lead to better outcomes. Please let me know your thoughts.".data
  let t := trim (collapseWs text)
  intro ++ (charAt0Upper t ++ slice1 t) ++ outro

/-- server.js lines 208–216. -/
def wrapCalm (text : List Char) : List Char :=
  let intro := "I understand there may be different perspectives here. ".data
  let outro := " I'd appreciate the opportunity to discuss this further when you have time.".data
  let t := trim (collapseWs text)
  intro ++ (charAt0Upper t ++ slice1 t) ++ outro

/-- server.js lines 218–226 (the outro's final characters are the literal
bytes of the source file: U+F8FF, ü, ò, ä). -/
def wrapFriendly (text : List Char) : List Char :=
  let intro := "Hey! I wanted to chat about something. ".data
  let outro := " Would love to hear your take on this! \uF8FF\u00FC\u00F2\u00E4".data
  let t := trim (collapseWs text)
  intro ++ (charAt0Upper t ++ slice1 t) ++ outro

def isSentenceEnd (c : Char) : Bool := c == '.' || c == '!' || c == '?'

/-- `text.match(/^[^.!?]+[.!?]/)?.[0]`: a non-empty run of non-terminators
followed by the first terminator, or no match. -/
def firstSentenceMatch (s : List Char) : Option (List Char) :=
  let pre := s.takeWhile (fun c => !isSentenceEnd c)
  if pre.isEmpty then none
  else
    match s.drop pre.length with
    | [] => none
    | c :: _ => some (pre ++ [c])

/-- server.js lines 228–236 (`text.substring(0, 100)` counts UTF-16 code
units; the model counts characters). -/
def wrapShort (text : List Char) : List Char :=
  let t := trim (collapseWs text)
  let firstSentence := (firstSentenceMatch t).getD (t.take 100)
  "Quick note: ".data ++ trim firstSentence ++ " Let's discuss.".data

inductive Tone
  | professional
  | calm
  | friendly
  | short
deriving DecidableEq

/-- server.js lines 157–195. -/
def applyRewriteRules (text : List Char) (tone : Tone) : List Char :=
  let result := soften text
  match tone with
  | .professional => wrapProfessional result
  | .calm => wrapCalm result
  | .friendly => wrapFriendly result
  | .short => wrapShort result

/-! ### The `/api/rewrite` handler (server.js lines 117–149) -/

inductive RewriteResponse
  | ok (rewritten : List Char) (tone : Tone)
  | err (status : Nat) (msg : List Char)
deriving DecidableEq

def invalidTextMsg : List Char :=
  "Invalid input: text field is required and must be a string".data

def invalidToneMsg : List Char :=
  "Invalid input: tone must be one of: professional, calm, friendly, short".data

def toneStr : Tone → List Char
  | .professional => "professional".data
  | .calm => "calm".data
  | .friendly => "friendly".data
  | .short => "short".data

/-- `['professional', 'calm', 'friendly', 'short'].includes(tone)` (the
`!tone` falsiness test is subsumed: the empty string is not in the list). -/
def parseTone (s : List Char) : Option Tone :=
  if s = "professional".data then some .professional
  else if s = "calm".data then some .calm
  else if s = "friendly".data then some .friendly
  else if s = "short".data then some .short
  else none

/-- The rewrite handler.  `text = none` models an absent or non-string
`text` field; `some []` is the empty string (also falsy, hence rejected by
`if (!text || typeof text !== 'string')`).  No other validation of the text
is performed before `applyRewriteRules` runs. -/
def rewriteHandler (text : Option (List Char)) (tone : List Char) :
    RewriteResponse :=
  match text with
  | none => .err 400 invalidTextMsg
  | some t =>
    if t.isEmpty then .err 400 invalidTextMsg
    else
      match parseTone tone with
      | none => .err 400 invalidToneMsg
      | some tn => .ok (applyRewriteRules t tn) tn

/-! ### The `/api/moderate` handler, from the upstream response on
(server.js lines 73–107).  `UpstreamPayload` classifies `result.data?.[1]`:
absent/falsy (`missing`, which throws `Error('Unexpected API response
format')`), a string `JSON.parse` rejects (`malformedJson`, carrying the
parse error's message), or a parsed object whose `max_value` is either a
number or absent/non-numeric (`parsed`).  In the last case the code performs
no check: `toxicityData.max_value` is `undefined` when absent, so
`Math.round(undefined * 100)` is `NaN` (modelled by `none`), and `res.json`
still answers 200. -/

inductive UpstreamPayload
  | missing
  | malformedJson (errMsg : List Char)
  | parsed (maxValue : Option Rat)

inductive ModerateResponse
  | ok (scorePct : Option Int) (score01 : Option Rat)
  | err (status : Nat) (msg : List Char)
deriving DecidableEq

/-- `Math.round` on an exact rational: round half toward positive infinity. -/
def jsRound (q : Rat) : Int := Int.floor (q + 1 / 2)

/-- `String.prototype.includes`. -/
def containsSub (needle hay : List Char) : Bool :=
  hay.tails.any (fun t => needle.isPrefixOf t)

def connectErrMsg : List Char :=
  "Unable to connect to moderation service. Please try again.".data

def failedErrMsg : List Char :=
  "Failed to analyze message. Please try again.".data

def formatErrMsg : List Char := "Unexpected API response format".data

/-- The catch block of `/api/moderate` (lines 94–107):
`error.message?.includes('connect')` selects 503; everything else
(including an absent message, `none`) gets the generic 500. -/
def moderateCatch (msg : Option (List Char)) : ModerateResponse :=
  match msg with
  | some m =>
    if containsSub "connect".data m then .err 503 connectErrMsg
    else .err 500 failedErrMsg
  | none => .err 500 failedErrMsg

/-- Lines 73–92 plus the catch block: the response computed from the
upstream payload. -/
def moderateUpstream : UpstreamPayload → ModerateResponse
  | .missing => moderateCatch (some formatErrMsg)
  | .malformedJson m => moderateCatch (some m)
  | .parsed mv => .ok (mv.map (fun v => jsRound (v * 100))) mv

/-! ### Spec-side decompositions used to state the claims -/

/-- First character upper-cased (what
`text.charAt(0).toUpperCase() + text.slice(1)` computes). -/
def capFirst : List Char → List Char
  | [] => []
  | c :: cs => c.toUpper :: cs

def tonePrefix : Tone → List Char
  | .professional => "I wanted to share some feedback regarding this matter. ".data
  | .calm => "I understand there may be different perspectives here. ".data
  | .friendly => "Hey! I wanted to chat about something. ".data
  | .short => "Quick note: ".data

def toneSuffix : Tone → List Char
  | .professional => " I believe addressing this could lead to better outcomes. Please let me know your thoughts.".data
  | .calm => " I'd appreciate the opportunity to discuss this further when you have time.".data
  | .friendly => " Would love to hear your take on this! \uF8FF\u00FC\u00F2\u00E4".data
  | .short => " Let's discuss.".data

/-- The core text each tone template wraps: the softened text after
whitespace collapse and trim, first letter capitalized — except `short`,
which instead extracts the first sentence (or first 100 characters) and
trims it, with no capitalization. -/
def coreText (tone : Tone) (text : List Char) : List Char :=
  let n := trim (collapseWs (soften text))
  match tone with
  | .short => trim ((firstSentenceMatch n).getD (n.take 100))
  | _ => capFirst n

/-! ### Decidable predicates for the idempotence proof (C3).

`noMatch alts pw s` says the pattern `\b(alts…)\b` has no occurrence
anywhere in `s` (given that the character preceding `s` is a word character
iff `pw`): on such a string the scanner is the identity.  The remaining
predicates are decidable side conditions on the rule set, checked by
evaluation, from which `noMatch` of every rule on `soften t` is proved for
every `t`. -/

def noMatch (alts : List (List Char)) : Bool → List Char → Bool
  | _, [] => true
  | pw, c :: cs => (pw || (tryAlts alts (c :: cs)).isNone) && noMatch alts (isWordChar c) cs

/-- Whether the character preceding the position after `s` is a word
character (`pw` if `s` is empty). -/
def endBit : Bool → List Char → Bool
  | pw, [] => pw
  | _, c :: cs => endBit (isWordChar c) cs

def headWordB : List Char → Bool
  | [] => false
  | c :: _ => isWordChar c

def endsWordB (l : List Char) : Bool :=
  match l.getLast? with
  | none => false
  | some c => isWordChar c

/-- Matching a pattern word against a block of known text that is followed
by unknown text: the match can succeed inside the block (`done rest`,
`rest` the unconsumed block), need more input (`past a'`, `a'` the
unconsumed pattern), or mismatch (`miss`). -/
inductive MatchOut
  | done (rest : List Char)
  | past (pat : List Char)
  | miss

def matchSplit : List Char → List Char → MatchOut
  | [], s => .done s
  | p :: ps, [] => .past (p :: ps)
  | p :: ps, c :: cs => if c.toLower = p then matchSplit ps cs else .miss

/-- A boundary-checked match of the single alternative `a` at the start of
`s`. -/
def altTryB (a s : List Char) : Bool :=
  match matchAlt a s with
  | some rest => boundaryAfterB rest
  | none => false

/-- `a` cannot match starting at the head of `block ++ o'` for ANY
continuation `o'` that is empty or starts with a non-word character:
either the pattern mismatches inside the block, or it completes with a
word character of the block right after it, or it runs past the block with
a word character needed next. -/
def enterSafe (a block : List Char) : Bool :=
  match matchSplit a block with
  | .miss => true
  | .done [] => false
  | .done (c :: _) => isWordChar c
  | .past [] => false
  | .past (c :: _) => isWordChar c

/-- `enterSafe` for every suffix of the pattern word (a match scanned from
any number of characters before the block must still fail). -/
def tailsSafe : List Char → List Char → Bool
  | [], _ => true
  | a :: as, block => enterSafe (a :: as) block && tailsSafe as block

/-- No alternative of `I` can match starting at any position of the block
(for any continuation that begins at a word boundary). -/
def safeChunk (I : List (List Char)) : Bool → List Char → Bool
  | _, [] => true
  | pw, c :: cs =>
    (pw || I.all (fun a => enterSafe a (c :: cs))) && safeChunk I (isWordChar c) cs

/-- Structural facts about a rule's alternatives: each is non-empty and
begins and ends with a word character. -/
def altsWF (J : List (List Char)) : Bool :=
  J.all (fun a => headWordB a && endsWordB a)

/-- Structural facts about a replacement: non-empty, begins and ends with a
word character. -/
def replWF (r : List Char) : Bool := headWordB r && endBit false r

/-- The conditions under which applying the rule with replacement `rJ`
cannot create an occurrence of `I`'s pattern. -/
def pairOK (I : List (List Char)) (rJ : List Char) : Bool :=
  I.all (fun a => headWordB a && tailsSafe a rJ) && safeChunk I false rJ

def pairsOKfor (I : List (List Char))
    (rs : List (List (List Char) × List Char)) : Bool :=
  rs.all (fun rJ => altsWF rJ.1 && replWF rJ.2 && pairOK I rJ.2)

/-- The master side condition: every rule's pattern is compatible, in the
above sense, with every rule of the list (itself included). -/
def rulesSafeB : Bool :=
  aggressivePatterns.all (fun rI => pairsOKfor rI.1 aggressivePatterns)

/-! ## Basic lemmas about the scanner -/

theorem toNat_toLower (c : Char) :
    c.toLower.toNat =
      if 65 ≤ c.toNat ∧ c.toNat ≤ 90 then c.toNat + 32 else c.toNat := by
  unfold Char.toLower
  split
  · rename_i h
    rw [if_pos (by omega)]
    have hv : (c.toNat + 32).isValidChar := Or.inl (by omega)
    rw [Char.ofNat, dif_pos hv]
    rfl
  · rename_i h
    rw [if_neg (by omega)]

theorem isWordChar_toLower (c : Char) : isWordChar c.toLower = isWordChar c := by
  have h := toNat_toLower c
  by_cases hc : 65 ≤ c.toNat ∧ c.toNat ≤ 90
  · rw [if_pos hc] at h
    have h1 : (decide (97 ≤ c.toLower.toNat) && decide (c.toLower.toNat ≤ 122)) = true := by
      rw [h]; simp; omega
    have h2 : (decide (65 ≤ c.toNat) && decide (c.toNat ≤ 90)) = true := by
      simp; omega
    simp [isWordChar, h1, h2]
  · rw [if_neg hc] at h
    simp [isWordChar, h]

theorem isWordChar_of_match {c p : Char} (h : c.toLower = p)
    (hp : isWordChar p = true) : isWordChar c = true := by
  rw [← isWordChar_toLower, h]; exact hp

theorem matchAlt_length {a s r : List Char} (h : matchAlt a s = some r) :
    a.length + r.length = s.length := by
  induction a generalizing s with
  | nil =>
    simp only [matchAlt, Option.some.injEq] at h
    simp [h]
  | cons p ps ih =>
    cases s with
    | nil => simp [matchAlt] at h
    | cons c cs =>
      simp only [matchAlt] at h
      split at h
      · have := ih h
        simp only [List.length_cons]
        omega
      · exact absurd h (by simp)

theorem tryAlts_length {alts : List (List Char)} {s r : List Char}
    (h : tryAlts alts s = some r) : r.length < s.length := by
  induction alts with
  | nil => simp [tryAlts] at h
  | cons a as ih =>
    cases a with
    | nil => exact ih (by simpa [tryAlts] using h)
    | cons p ps =>
      simp only [tryAlts] at h
      cases hm : matchAlt (p :: ps) s with
      | none => rw [hm] at h; exact ih h
      | some rest =>
        rw [hm] at h
        have h' : (if boundaryAfterB rest = true then some rest
            else tryAlts as s) = some r := h
        by_cases hb : boundaryAfterB rest = true
        · rw [if_pos hb] at h'
          cases h'
          have := matchAlt_length hm
          simp only [List.length_cons] at this
          omega
        · rw [if_neg hb] at h'
          exact ih h'

theorem replScanF_fuel (alts : List (List Char)) (repl : List Char) :
    ∀ f g pw (s : List Char), s.length ≤ f → s.length ≤ g →
      replScanF alts repl f pw s = replScanF alts repl g pw s := by
  intro f
  induction f with
  | zero =>
    intro g pw s hf _
    have hs : s = [] := List.eq_nil_of_length_eq_zero (Nat.le_zero.mp hf)
    subst hs
    cases g <;> rfl
  | succ f ih =>
    intro g pw s hf hg
    cases s with
    | nil => cases g <;> rfl
    | cons c cs =>
      cases g with
      | zero => simp at hg
      | succ g =>
        simp only [List.length_cons] at hf hg
        have hcs : cs.length ≤ f := by omega
        have hcsg : cs.length ≤ g := by omega
        cases pw with
        | true =>
          show c :: replScanF alts repl f (isWordChar c) cs
              = c :: replScanF alts repl g (isWordChar c) cs
          rw [ih g (isWordChar c) cs hcs hcsg]
        | false =>
          show (match tryAlts alts (c :: cs) with
                | some rest => repl ++ replScanF alts repl f true rest
                | none => c :: replScanF alts repl f (isWordChar c) cs)
              = (match tryAlts alts (c :: cs) with
                | some rest => repl ++ replScanF alts repl g true rest
                | none => c :: replScanF alts repl g (isWordChar c) cs)
          cases ht : tryAlts alts (c :: cs) with
          | some rest =>
            have hr := tryAlts_length ht
            simp only [List.length_cons] at hr
            show repl ++ replScanF alts repl f true rest
                = repl ++ replScanF alts repl g true rest
            rw [ih g true rest (by omega) (by omega)]
          | none =>
            show c :: replScanF alts repl f (isWordChar c) cs
                = c :: replScanF alts repl g (isWordChar c) cs
            rw [ih g (isWordChar c) cs hcs hcsg]

theorem replScan_nil (alts : List (List Char)) (repl : List Char) (pw : Bool) :
    replScan alts repl pw [] = [] := rfl

theorem replScan_cons_true (alts : List (List Char)) (repl : List Char)
    (c : Char) (cs : List Char) :
    replScan alts repl true (c :: cs) = c :: replScan alts repl (isWordChar c) cs := rfl

theorem replScan_cons_of_match {alts : List (List Char)} {repl : List Char}
    {c : Char} {cs rest : List Char} (h : tryAlts alts (c :: cs) = some rest) :
    replScan alts repl false (c :: cs) = repl ++ replScan alts repl true rest := by
  have hr := tryAlts_length h
  simp only [List.length_cons] at hr
  have e1 : replScan alts repl false (c :: cs)
      = match tryAlts alts (c :: cs) with
        | some rest => repl ++ replScanF alts repl cs.length true rest
        | none => c :: replScanF alts repl cs.length (isWordChar c) cs := rfl
  rw [e1, h]
  show repl ++ replScanF alts repl cs.length true rest = _
  unfold replScan
  rw [replScanF_fuel alts repl cs.length rest.length true rest (by omega) (le_refl _)]

theorem replScan_cons_of_none {alts : List (List Char)} {repl : List Char}
    {c : Char} {cs : List Char} (h : tryAlts alts (c :: cs) = none) :
    replScan alts repl false (c :: cs) = c :: replScan alts repl (isWordChar c) cs := by
  have e1 : replScan alts repl false (c :: cs)
      = match tryAlts alts (c :: cs) with
        | some rest => repl ++ replScanF alts repl cs.length true rest
        | none => c :: replScanF alts repl cs.length (isWordChar c) cs := rfl
  rw [e1, h]
  rfl

theorem bandE {a b : Bool} (h : (a && b) = true) : a = true ∧ b = true := by
  simpa using h

/-! ## Relating `tryAlts` to per-alternative matches -/

theorem tryAlts_eq_none_of_all {alts : List (List Char)} {s : List Char}
    (h : ∀ a ∈ alts, a ≠ [] → altTryB a s = false) : tryAlts alts s = none := by
  induction alts with
  | nil => rfl
  | cons b bs ih =>
    have hrest : tryAlts bs s = none :=
      ih fun a ha han => h a (List.mem_cons_of_mem _ ha) han
    cases b with
    | nil => exact hrest
    | cons p ps =>
      have ha := h (p :: ps) (List.mem_cons_self _ _) (by simp)
      show (match matchAlt (p :: ps) s with
            | some rest => if boundaryAfterB rest = true then some rest else tryAlts bs s
            | none => tryAlts bs s) = none
      cases hm : matchAlt (p :: ps) s with
      | none => exact hrest
      | some rest =>
        have ha' : boundaryAfterB rest = false := by
          unfold altTryB at ha
          rw [hm] at ha
          exact ha
        show (if boundaryAfterB rest = true then some rest else tryAlts bs s) = none
        rw [ha']
        simpa using hrest

theorem altTryB_eq_false_of_none {alts : List (List Char)} {s a : List Char}
    (h : tryAlts alts s = none) (ha : a ∈ alts) (hne : a ≠ []) :
    altTryB a s = false := by
  induction alts with
  | nil => cases ha
  | cons b bs ih =>
    cases b with
    | nil =>
      rcases List.mem_cons.mp ha with h1 | h1
      · exact absurd h1 hne
      · exact ih h h1
    | cons p ps =>
      have h' : (match matchAlt (p :: ps) s with
            | some rest => if boundaryAfterB rest = true then some rest else tryAlts bs s
            | none => tryAlts bs s) = none := h
      rcases List.mem_cons.mp ha with h1 | h1
      · subst h1
        unfold altTryB
        cases hm : matchAlt (p :: ps) s with
        | none => rfl
        | some rest =>
          rw [hm] at h'
          have h'' : (if boundaryAfterB rest = true then some rest
              else tryAlts bs s) = none := h'
          by_cases hb : boundaryAfterB rest = true
          · rw [if_pos hb] at h''; cases h''
          · simpa using hb
      · cases hm : matchAlt (p :: ps) s with
        | none => rw [hm] at h'; exact ih h' h1
        | some rest =>
          rw [hm] at h'
          have h'' : (if boundaryAfterB rest = true then some rest
              else tryAlts bs s) = none := h'
          by_cases hb : boundaryAfterB rest = true
          · rw [if_pos hb] at h''; cases h''
          · rw [if_neg hb] at h''; exact ih h'' h1

theorem tryAlts_eq_some {alts : List (List Char)} {s r : List Char}
    (h : tryAlts alts s = some r) :
    ∃ a, a ∈ alts ∧ a ≠ [] ∧ matchAlt a s = some r ∧ boundaryAfterB r = true := by
  induction alts with
  | nil => cases h
  | cons b bs ih =>
    cases b with
    | nil =>
      obtain ⟨a, h1, h2, h3, h4⟩ := ih h
      exact ⟨a, List.mem_cons_of_mem _ h1, h2, h3, h4⟩
    | cons p ps =>
      have h' : (match matchAlt (p :: ps) s with
            | some rest => if boundaryAfterB rest = true then some rest else tryAlts bs s
            | none => tryAlts bs s) = some r := h
      cases hm : matchAlt (p :: ps) s with
      | none =>
        rw [hm] at h'
        obtain ⟨a, h1, h2, h3, h4⟩ := ih h'
        exact ⟨a, List.mem_cons_of_mem _ h1, h2, h3, h4⟩
      | some rest =>
        rw [hm] at h'
        have h'' : (if boundaryAfterB rest = true then some rest
            else tryAlts bs s) = some r := h'
        by_cases hb : boundaryAfterB rest = true
        · rw [if_pos hb] at h''
          cases h''
          exact ⟨p :: ps, List.mem_cons_self _ _, by simp, hm, hb⟩
        · rw [if_neg hb] at h''
          obtain ⟨a, h1, h2, h3, h4⟩ := ih h''
          exact ⟨a, List.mem_cons_of_mem _ h1, h2, h3, h4⟩

/-! ## Matching across a block boundary -/

theorem matchSplit_done {a x rest : List Char} (h : matchSplit a x = .done rest) :
    ∀ y, matchAlt a (x ++ y) = some (rest ++ y) := by
  induction a generalizing x with
  | nil =>
    intro y
    have h' : MatchOut.done x = MatchOut.done rest := h
    cases h'
    rfl
  | cons p ps ih =>
    intro y
    cases x with
    | nil => simp [matchSplit] at h
    | cons c cs =>
      have h' : (if c.toLower = p then matchSplit ps cs else .miss) = .done rest := h
      by_cases hc : c.toLower = p
      · rw [if_pos hc] at h'
        show (if c.toLower = p then matchAlt ps (cs ++ y) else none) = some (rest ++ y)
        rw [if_pos hc]
        exact ih h' y
      · rw [if_neg hc] at h'; cases h'

theorem matchSplit_past {a x a' : List Char} (h : matchSplit a x = .past a') :
    ∀ y, matchAlt a (x ++ y) = matchAlt a' y := by
  induction a generalizing x with
  | nil =>
    intro y
    have h' : MatchOut.done x = MatchOut.past a' := h
    cases h'
  | cons p ps ih =>
    intro y
    cases x with
    | nil =>
      have h' : MatchOut.past (p :: ps) = MatchOut.past a' := h
      cases h'
      rfl
    | cons c cs =>
      have h' : (if c.toLower = p then matchSplit ps cs else .miss) = .past a' := h
      by_cases hc : c.toLower = p
      · rw [if_pos hc] at h'
        show (if c.toLower = p then matchAlt ps (cs ++ y) else none) = matchAlt a' y
        rw [if_pos hc]
        exact ih h' y
      · rw [if_neg hc] at h'; cases h'

theorem matchSplit_miss {a x : List Char} (h : matchSplit a x = .miss) :
    ∀ y, matchAlt a (x ++ y) = none := by
  induction a generalizing x with
  | nil =>
    intro y
    have h' : MatchOut.done x = MatchOut.miss := h
    cases h'
  | cons p ps ih =>
    intro y
    cases x with
    | nil =>
      have h' : MatchOut.past (p :: ps) = MatchOut.miss := h
      cases h'
    | cons c cs =>
      have h' : (if c.toLower = p then matchSplit ps cs else .miss) = .miss := h
      by_cases hc : c.toLower = p
      · rw [if_pos hc] at h'
        show (if c.toLower = p then matchAlt ps (cs ++ y) else none) = none
        rw [if_pos hc]
        exact ih h' y
      · show (if c.toLower = p then matchAlt ps (cs ++ y) else none) = none
        rw [if_neg hc]

/-- An `enterSafe` pattern cannot match at the head of the block, whatever
word-boundary-starting continuation follows it. -/
theorem enterSafe_blocks {a block o' : List Char} (hs : enterSafe a block = true)
    (ho : boundaryAfterB o' = true) : altTryB a (block ++ o') = false := by
  have hs' : (match matchSplit a block with
      | .miss => true
      | .done [] => false
      | .done (c :: _) => isWordChar c
      | .past [] => false
      | .past (c :: _) => isWordChar c) = true := hs
  unfold altTryB
  cases hm : matchSplit a block with
  | miss => rw [matchSplit_miss hm o']
  | done rest =>
    rw [matchSplit_done hm o']
    rw [hm] at hs'
    cases rest with
    | nil => cases hs'
    | cons d ds =>
      have hd : isWordChar d = true := hs'
      show boundaryAfterB (d :: (ds ++ o')) = false
      show (!isWordChar d) = false
      rw [hd]
      rfl
  | past a' =>
    rw [matchSplit_past hm o']
    rw [hm] at hs'
    cases a' with
    | nil => cases hs'
    | cons d ds =>
      have hd : isWordChar d = true := hs'
      cases o' with
      | nil => rfl
      | cons e es =>
        have he : isWordChar e = false := by
          have he' : (!isWordChar e) = true := ho
          simpa using he'
        show (match (if e.toLower = d then matchAlt ds es else none) with
              | some rest => boundaryAfterB rest
              | none => false) = false
        have hne : ¬ e.toLower = d := by
          intro hed
          have := isWordChar_of_match hed hd
          rw [this] at he
          cases he
        rw [if_neg hne]

/-! ## Basic facts about `noMatch` -/

theorem noMatch_tail {alts : List (List Char)} {pw : Bool} {c : Char}
    {cs : List Char} (h : noMatch alts pw (c :: cs) = true) :
    noMatch alts (isWordChar c) cs = true :=
  (bandE h).2

theorem noMatch_head {alts : List (List Char)} {c : Char} {cs : List Char}
    (h : noMatch alts false (c :: cs) = true) : tryAlts alts (c :: cs) = none := by
  have h1 := (bandE h).1
  have h1' : (tryAlts alts (c :: cs)).isNone = true := by simpa using h1
  exact Option.isNone_iff_eq_none.mp h1'

theorem noMatch_mono {alts : List (List Char)} {s : List Char} (pw : Bool)
    (h : noMatch alts false s = true) : noMatch alts pw s = true := by
  cases s with
  | nil => rfl
  | cons c cs =>
    have h1 : (tryAlts alts (c :: cs)).isNone = true := by
      simpa using (bandE h).1
    have h2 := (bandE h).2
    show ((pw || (tryAlts alts (c :: cs)).isNone) && noMatch alts (isWordChar c) cs) = true
    rw [h1, h2]
    simp

/-- On a string with no occurrence of the pattern, the scanner is the
identity. -/
theorem replScan_id {alts : List (List Char)} (repl : List Char) :
    ∀ (s : List Char) (pw : Bool), noMatch alts pw s = true →
      replScan alts repl pw s = s := by
  intro s
  induction s with
  | nil => intro pw _; rfl
  | cons c cs ih =>
    intro pw h
    have h2 := noMatch_tail h
    cases pw with
    | true => rw [replScan_cons_true, ih _ h2]
    | false =>
      rw [replScan_cons_of_none (noMatch_head h), ih _ h2]

/-! ## The scanner preserves the head boundary class -/

theorem all_of_altsWF {J : List (List Char)} (hJ : altsWF J = true) {a : List Char}
    (ha : a ∈ J) : headWordB a = true ∧ endsWordB a = true := by
  have := List.all_eq_true.mp hJ a ha
  exact bandE (by simpa using this)

theorem boundaryAfterB_replScan {J : List (List Char)} {rJ : List Char}
    (hJ : altsWF J = true) (hR : replWF rJ = true) (s : List Char) (pw : Bool) :
    boundaryAfterB (replScan J rJ pw s) = boundaryAfterB s := by
  cases s with
  | nil => rfl
  | cons c cs =>
    cases pw with
    | true => rw [replScan_cons_true]; rfl
    | false =>
      cases ht : tryAlts J (c :: cs) with
      | none => rw [replScan_cons_of_none ht]; rfl
      | some rest =>
        rw [replScan_cons_of_match ht]
        obtain ⟨a, haJ, hne, hm, _⟩ := tryAlts_eq_some ht
        cases a with
        | nil => exact absurd rfl hne
        | cons p ps =>
          have hp : c.toLower = p := by
            by_contra hc
            have hm' : (if c.toLower = p then matchAlt ps cs else none) = some rest := hm
            rw [if_neg hc] at hm'
            cases hm'
          have hword : isWordChar p = true := (all_of_altsWF hJ haJ).1
          have hc : isWordChar c = true := isWordChar_of_match hp hword
          have hrj : headWordB rJ = true := (bandE hR).1
          cases rJ with
          | nil => cases hrj
          | cons e es =>
            have he : isWordChar e = true := hrj
            show (!isWordChar e) = (!isWordChar c)
            rw [he, hc]

/-! ## No new match appears at a kept position -/

theorem altTryB_cons (p c : Char) (ps cs : List Char) :
    altTryB (p :: ps) (c :: cs) = if c.toLower = p then altTryB ps cs else false := by
  unfold altTryB
  by_cases hc : c.toLower = p
  · rw [if_pos hc]
    show (match (if c.toLower = p then matchAlt ps cs else none) with
          | some rest => boundaryAfterB rest
          | none => false) = _
    rw [if_pos hc]
  · rw [if_neg hc]
    show (match (if c.toLower = p then matchAlt ps cs else none) with
          | some rest => boundaryAfterB rest
          | none => false) = false
    rw [if_neg hc]

/-- If an alternative (or any suffix of one, hence the `tailsSafe`
hypothesis) matches with its boundary at the head of the scanner's output,
it already matched at the head of the scanner's input. -/
theorem altTry_transfer {J : List (List Char)} {rJ : List Char}
    (hJ : altsWF J = true) (hR : replWF rJ = true) :
    ∀ (a : List Char), tailsSafe a rJ = true →
      ∀ (s : List Char) (pw : Bool),
        altTryB a (replScan J rJ pw s) = true → altTryB a s = true := by
  intro a
  induction a with
  | nil =>
    intro _ s pw hout
    show boundaryAfterB s = true
    rw [← boundaryAfterB_replScan hJ hR s pw]
    exact hout
  | cons p ps ih =>
    intro hts s pw hout
    cases s with
    | nil =>
      rw [replScan_nil] at hout
      exact absurd (show (false : Bool) = true from hout) (by decide)
    | cons c cs =>
      cases pw with
      | true =>
        rw [replScan_cons_true, altTryB_cons] at hout
        rw [altTryB_cons]
        by_cases hc : c.toLower = p
        · rw [if_pos hc] at hout ⊢
          exact ih (bandE hts).2 cs (isWordChar c) hout
        · rw [if_neg hc] at hout; cases hout
      | false =>
        cases ht : tryAlts J (c :: cs) with
        | none =>
          rw [replScan_cons_of_none ht, altTryB_cons] at hout
          rw [altTryB_cons]
          by_cases hc : c.toLower = p
          · rw [if_pos hc] at hout ⊢
            exact ih (bandE hts).2 cs (isWordChar c) hout
          · rw [if_neg hc] at hout; cases hout
        | some rest =>
          rw [replScan_cons_of_match ht] at hout
          have hcont : boundaryAfterB (replScan J rJ true rest) = true := by
            rw [boundaryAfterB_replScan hJ hR]
            obtain ⟨a', _, _, _, hb⟩ := tryAlts_eq_some ht
            exact hb
          have hes : enterSafe (p :: ps) rJ = true := (bandE hts).1
          rw [enterSafe_blocks hes hcont] at hout
          cases hout

/-! ## No match inside an inserted replacement -/

/-- Gluing a block with no internal or entering matches (`safeChunk`) onto a
continuation that starts at a word boundary and itself has no matches. -/
theorem noMatch_chunk {I : List (List Char)} :
    ∀ (block : List Char) (pw : Bool) (o' : List Char),
      safeChunk I pw block = true → boundaryAfterB o' = true →
      noMatch I (endBit pw block) o' = true →
      noMatch I pw (block ++ o') = true := by
  intro block
  induction block with
  | nil => intro pw o' _ _ h3; exact h3
  | cons c cs ih =>
    intro pw o' h1 h2 h3
    have hparts := bandE (show ((pw || I.all fun a => enterSafe a (c :: cs)) &&
        safeChunk I (isWordChar c) cs) = true from h1)
    have htail : noMatch I (isWordChar c) (cs ++ o') = true :=
      ih (isWordChar c) o' hparts.2 h2 h3
    have hfirst : (pw || (tryAlts I (c :: (cs ++ o'))).isNone) = true := by
      cases hpw : pw with
      | true => rfl
      | false =>
        have hall : I.all (fun a => enterSafe a (c :: cs)) = true := by
          have := hparts.1; rw [hpw] at this; simpa using this
        have hnone : tryAlts I (c :: (cs ++ o')) = none := by
          apply tryAlts_eq_none_of_all
          intro a ha _
          have hsafe : enterSafe a (c :: cs) = true := by
            have := List.all_eq_true.mp hall a ha
            simpa using this
          exact enterSafe_blocks hsafe h2
        rw [hnone]
        rfl
    show ((pw || (tryAlts I (c :: (cs ++ o'))).isNone) &&
        noMatch I (isWordChar c) (cs ++ o')) = true
    rw [hfirst, htail]
    rfl

/-! ## `noMatch` survives skipping over a matched span -/

theorem noMatch_after_matched {I : List (List Char)} :
    ∀ (a s r : List Char) (pw : Bool), matchAlt a s = some r →
      endsWordB a = true → noMatch I pw s = true → noMatch I true r = true := by
  intro a
  induction a with
  | nil =>
    intro s r pw _ he _
    exact absurd (show (false : Bool) = true from he) (by decide)
  | cons p ps ih =>
    intro s r pw hm he hno
    cases s with
    | nil => cases hm
    | cons c cs =>
      have hm' : (if c.toLower = p then matchAlt ps cs else none) = some r := hm
      by_cases hc : c.toLower = p
      · rw [if_pos hc] at hm'
        cases ps with
        | nil =>
          have hcr : cs = r := by
            have : some cs = some r := hm'
            cases this
            rfl
          subst hcr
          have hp : isWordChar p = true := by
            simpa [endsWordB, List.getLast?] using he
          have hcw : isWordChar c = true := isWordChar_of_match hc hp
          have h2 := noMatch_tail hno
          rw [hcw] at h2
          exact h2
        | cons q qs =>
          apply ih cs r (isWordChar c) hm' ?_ (noMatch_tail hno)
          have : (p :: q :: qs).getLast? = (q :: qs).getLast? := List.getLast?_cons_cons
          unfold endsWordB at he ⊢
          rw [← this]
          exact he
      · rw [if_neg hc] at hm'; cases hm'

/-! ## The main preservation theorem

Applying rule `(J, rJ)` leaves no occurrence of `I`'s pattern behind:
either `I = J` (self-clearing) or `I` already had no occurrence
(preservation). -/

theorem noMatch_replScan {I J : List (List Char)} {rJ : List Char}
    (hJ : altsWF J = true) (hR : replWF rJ = true) (hP : pairOK I rJ = true) :
    ∀ (n : Nat) (s : List Char) (pw : Bool), s.length ≤ n →
      (I = J ∨ noMatch I pw s = true) →
      noMatch I pw (replScan J rJ pw s) = true := by
  intro n
  induction n with
  | zero =>
    intro s pw hl _
    have hs : s = [] := List.eq_nil_of_length_eq_zero (Nat.le_zero.mp hl)
    subst hs
    rfl
  | succ n ih =>
    intro s pw hl hH
    cases s with
    | nil => rfl
    | cons c cs =>
      simp only [List.length_cons] at hl
      have hH' : I = J ∨ noMatch I (isWordChar c) cs = true := by
        rcases hH with h | h
        · exact Or.inl h
        · exact Or.inr (noMatch_tail h)
      cases pw with
      | true =>
        rw [replScan_cons_true]
        have htail := ih cs (isWordChar c) (by omega) hH'
        show ((true || (tryAlts I (c :: replScan J rJ (isWordChar c) cs)).isNone) &&
            noMatch I (isWordChar c) (replScan J rJ (isWordChar c) cs)) = true
        rw [htail]
        rfl
      | false =>
        cases ht : tryAlts J (c :: cs) with
        | none =>
          rw [replScan_cons_of_none ht]
          have htail := ih cs (isWordChar c) (by omega) hH'
          have hfirst : tryAlts I (c :: replScan J rJ (isWordChar c) cs) = none := by
            apply tryAlts_eq_none_of_all
            intro a ha hne
            have hin : altTryB a (c :: cs) = false := by
              rcases hH with h | h
              · subst h; exact altTryB_eq_false_of_none ht ha hne
              · exact altTryB_eq_false_of_none (noMatch_head h) ha hne
            have hts : tailsSafe a rJ = true := by
              have h1 := List.all_eq_true.mp (bandE hP).1 a ha
              exact (bandE (by simpa using h1)).2
            cases htr : altTryB a (c :: replScan J rJ (isWordChar c) cs) with
            | false => rfl
            | true =>
              have htr' : altTryB a (replScan J rJ false (c :: cs)) = true := by
                rw [replScan_cons_of_none ht]; exact htr
              have := altTry_transfer hJ hR a hts (c :: cs) false htr'
              rw [this] at hin
              cases hin
          show ((false || (tryAlts I (c :: replScan J rJ (isWordChar c) cs)).isNone) &&
              noMatch I (isWordChar c) (replScan J rJ (isWordChar c) cs)) = true
          rw [hfirst, htail]
          rfl
        | some rest =>
          rw [replScan_cons_of_match ht]
          have hsc : safeChunk I false rJ = true := (bandE hP).2
          have hlr : rest.length ≤ n := by
            have := tryAlts_length ht
            simp only [List.length_cons] at this
            omega
          have hrest : I = J ∨ noMatch I true rest = true := by
            rcases hH with h | h
            · exact Or.inl h
            · obtain ⟨a, haJ, _, hm, _⟩ := tryAlts_eq_some ht
              have hew : endsWordB a = true := (all_of_altsWF hJ haJ).2
              exact Or.inr (noMatch_after_matched a (c :: cs) rest false hm hew h)
          have hcont_nm := ih rest true hlr hrest
          have hcontb : boundaryAfterB (replScan J rJ true rest) = true := by
            rw [boundaryAfterB_replScan hJ hR]
            obtain ⟨a, _, _, _, hb⟩ := tryAlts_eq_some ht
            exact hb
          have heb : endBit false rJ = true := (bandE hR).2
          apply noMatch_chunk rJ false (replScan J rJ true rest) hsc hcontb
          rw [heb]
          exact hcont_nm

/-! ## Assembling idempotence of the softening phase -/

theorem noMatch_foldPreserve {I : List (List Char)} :
    ∀ (rs : List (List (List Char) × List Char)) (s : List Char),
      pairsOKfor I rs = true → noMatch I false s = true →
      noMatch I false (rs.foldl (fun acc r => applyRule r acc) s) = true := by
  intro rs
  induction rs with
  | nil => intro s _ h; exact h
  | cons r rest ih =>
    intro s hok h
    have hparts := bandE (show ((altsWF r.1 && replWF r.2 && pairOK I r.2) &&
        pairsOKfor I rest) = true from hok)
    have h1 := bandE hparts.1
    have h2 := bandE h1.1
    have hstep : noMatch I false (applyRule r s) = true :=
      noMatch_replScan h2.1 h2.2 h1.2 s.length s false (le_refl _) (Or.inr h)
    exact ih (applyRule r s) hparts.2 hstep

theorem noMatch_foldAll :
    ∀ (rs : List (List (List Char) × List Char)) (s : List Char),
      (∀ r' ∈ rs, pairsOKfor r'.1 rs = true) →
      ∀ r ∈ rs, noMatch r.1 false (rs.foldl (fun acc r => applyRule r acc) s) = true := by
  intro rs
  induction rs with
  | nil => intro s _ r hr; cases hr
  | cons r0 rest ih =>
    intro s hok r hr
    rcases List.mem_cons.mp hr with h | h
    · subst h
      have hok0 := hok r (List.mem_cons_self _ _)
      have hparts := bandE (show ((altsWF r.1 && replWF r.2 && pairOK r.1 r.2) &&
          pairsOKfor r.1 rest) = true from hok0)
      have h1 := bandE hparts.1
      have h2 := bandE h1.1
      have hself : noMatch r.1 false (applyRule r s) = true :=
        noMatch_replScan h2.1 h2.2 h1.2 s.length s false (le_refl _) (Or.inl rfl)
      exact noMatch_foldPreserve rest (applyRule r s) hparts.2 hself
    · apply ih (applyRule r0 s) ?_ r h
      intro r' hr'
      have hok' := hok r' (List.mem_cons_of_mem _ hr')
      exact (bandE (show ((altsWF r0.1 && replWF r0.2 && pairOK r'.1 r0.2) &&
          pairsOKfor r'.1 rest) = true from hok')).2

theorem fold_id :
    ∀ (rs : List (List (List Char) × List Char)) (s : List Char),
      (∀ r ∈ rs, noMatch r.1 false s = true) →
      rs.foldl (fun acc r => applyRule r acc) s = s := by
  intro rs
  induction rs with
  | nil => intro s _; rfl
  | cons r0 rest ih =>
    intro s h
    have h0 : applyRule r0 s = s := replScan_id _ s false (h r0 (List.mem_cons_self _ _))
    show rest.foldl (fun acc r => applyRule r acc) (applyRule r0 s) = s
    rw [h0]
    exact ih s fun r hr => h r (List.mem_cons_of_mem _ hr)

set_option maxHeartbeats 2000000 in
/-- The side conditions hold for the concrete rule list, by evaluation. -/
theorem rulesSafe : rulesSafeB = true := by decide

theorem rulesSafe_all :
    ∀ r ∈ aggressivePatterns, pairsOKfor r.1 aggressivePatterns = true := by
  intro r hr
  have := List.all_eq_true.mp rulesSafe r hr
  simpa using this

/-- After the softening phase, no rule's pattern occurs anywhere in the
text. -/
theorem soften_noMatch (t : List Char) :
    ∀ r ∈ aggressivePatterns, noMatch r.1 false (soften t) = true :=
  noMatch_foldAll aggressivePatterns t rulesSafe_all

theorem soften_idempotent (t : List Char) : soften (soften t) = soften t :=
  fold_id aggressivePatterns (soften t) (soften_noMatch t)

/-! ## Further helper lemmas for the claims -/

theorem capFirst_eq (s : List Char) : charAt0Upper s ++ slice1 s = capFirst s := by
  cases s <;> rfl

theorem firstSentenceMatch_eq_none {s : List Char}
    (h : ∀ c ∈ s, isSentenceEnd c = false) : firstSentenceMatch s = none := by
  have hpre : s.takeWhile (fun c => !isSentenceEnd c) = s :=
    List.takeWhile_eq_self_iff.mpr (by intro a ha; simp [h a ha])
  show (if (s.takeWhile fun c => !isSentenceEnd c).isEmpty = true then none
        else match s.drop (s.takeWhile fun c => !isSentenceEnd c).length with
        | [] => none
        | c :: _ => some ((s.takeWhile fun c => !isSentenceEnd c) ++ [c])) = none
  rw [hpre, List.drop_length]
  by_cases hs : s.isEmpty = true
  · rw [if_pos hs]
  · rw [if_neg hs]

/-! ## The claims -/

/-- C1 (code bug): the spec demands that a parsed upstream payload lacking
(or with a malformed) `max_value` fail with `UpstreamFormatError`, but the
code only throws for an absent payload string or unparseable JSON; when the
payload parses and merely lacks `max_value`, `Math.round(undefined * 100)`
is `NaN` and the handler answers 200 with a non-numeric score — a success
response. -/
theorem C1_missing_max_value_is_success :
    moderateUpstream (.parsed none) = .ok none none ∧
    moderateUpstream .missing = .err 500 failedErrMsg ∧
    (∀ m, ∃ st msg, moderateUpstream (.malformedJson m) = .err st msg) := by
  refine ⟨rfl, by decide, ?_⟩
  intro m
  by_cases h : containsSub "connect".data m = true
  · refine ⟨503, connectErrMsg, ?_⟩
    show (if containsSub "connect".data m = true then ModerateResponse.err 503 connectErrMsg
          else .err 500 failedErrMsg) = ModerateResponse.err 503 connectErrMsg
    rw [if_pos h]
  · refine ⟨500, failedErrMsg, ?_⟩
    show (if containsSub "connect".data m = true then ModerateResponse.err 503 connectErrMsg
          else .err 500 failedErrMsg) = ModerateResponse.err 500 failedErrMsg
    rw [if_neg h]

set_option maxHeartbeats 2000000 in
/-- C2 (counterexample): a whitespace-only text is truthy, so the rewrite
handler does NOT fail with InvalidInput; it answers 200 with the
professional template wrapped around an empty core. -/
theorem C2_whitespace_not_rejected :
    rewriteHandler (some [' ']) "professional".data =
      .ok ("I wanted to share some feedback regarding this matter.  I believe addressing this could lead to better outcomes. Please let me know your thoughts.".data)
        .professional := by
  decide

/-- C2 (amended): a missing/non-string or empty-string text fails with
InvalidInput (HTTP 400), but a non-empty whitespace-only text passes
validation and the handler returns a success response wrapping it. -/
theorem C2_empty_text_rejected :
    (∀ ts, rewriteHandler none ts = .err 400 invalidTextMsg) ∧
    (∀ ts, rewriteHandler (some []) ts = .err 400 invalidTextMsg) ∧
    (∀ (t : List Char) (tn : Tone), t ≠ [] → (∀ c ∈ t, isJsWs c = true) →
      rewriteHandler (some t) (toneStr tn) = .ok (applyRewriteRules t tn) tn) := by
  refine ⟨fun _ => rfl, fun _ => rfl, ?_⟩
  intro t tn hne _
  cases t with
  | nil => exact absurd rfl hne
  | cons c cs =>
    show (if (c :: cs).isEmpty = true then RewriteResponse.err 400 invalidTextMsg
          else match parseTone (toneStr tn) with
          | none => .err 400 invalidToneMsg
          | some tn' => .ok (applyRewriteRules (c :: cs) tn') tn')
        = .ok (applyRewriteRules (c :: cs) tn) tn
    rw [if_neg (by simp)]
    cases tn <;> rfl

theorem C2_empty_text_rejected_witness :
    rewriteHandler (some []) "professional".data = .err 400 invalidTextMsg ∧
    rewriteHandler (some [' ']) "calm".data =
      .ok (applyRewriteRules [' '] .calm) .calm :=
  ⟨C2_empty_text_rejected.2.1 "professional".data,
   C2_empty_text_rejected.2.2 [' '] .calm (by decide) (by decide)⟩

/-- C3: the softening phase is idempotent — re-running the ordered rule
list on its own output changes nothing; in particular the replacement
vocabulary (e.g. "unclear") is not itself a rewrite target. -/
theorem C3_soften_idempotent :
    (∀ t : List Char, soften (soften t) = soften t) ∧
    soften "unclear".data = "unclear".data :=
  ⟨soften_idempotent, by decide⟩

/-- C4: for every input and valid tone, the rewritten string is exactly the
tone's fixed prefix, then the softened core (whitespace-collapsed, trimmed,
first character capitalized — except for `short`, which extracts the first
sentence or first 100 characters, trimmed and uncapitalized), then the
tone's fixed suffix. -/
theorem C4_tone_wrapping (t : List Char) (tone : Tone) :
    applyRewriteRules t tone = tonePrefix tone ++ coreText tone t ++ toneSuffix tone := by
  cases tone <;>
    simp only [applyRewriteRules, wrapProfessional, wrapCalm, wrapFriendly, wrapShort,
      tonePrefix, coreText, toneSuffix, capFirst_eq, List.append_assoc]

set_option maxHeartbeats 2000000 in
/-- C5: `rewrite("This is useless and a waste of time", "short")` is exactly
"Quick note: This is not quite working and a could be optimized Let's
discuss."; and in general for tone `short`, when the softened,
whitespace-normalized text contains no sentence terminator, the extracted
core is its first 100 characters. -/
theorem C5_short_first_sentence :
    applyRewriteRules "This is useless and a waste of time".data .short =
      "Quick note: This is not quite working and a could be optimized Let's discuss.".data ∧
    (∀ t : List Char, (∀ c ∈ trim (collapseWs (soften t)), isSentenceEnd c = false) →
      applyRewriteRules t .short =
        "Quick note: ".data ++ trim ((trim (collapseWs (soften t))).take 100) ++
          " Let's discuss.".data) := by
  constructor
  · decide
  · intro t h
    show "Quick note: ".data ++
        trim ((firstSentenceMatch (trim (collapseWs (soften t)))).getD
          ((trim (collapseWs (soften t))).take 100)) ++ " Let's discuss.".data = _
    rw [firstSentenceMatch_eq_none h, Option.getD_none]

theorem C5_short_first_sentence_witness :
    applyRewriteRules "no terminator here".data .short =
      "Quick note: ".data ++
        trim ((trim (collapseWs (soften "no terminator here".data))).take 100) ++
        " Let's discuss.".data :=
  C5_short_first_sentence.2 "no terminator here".data (by decide)

set_option maxHeartbeats 2000000 in
/-- C6: substitution matching is whole-word: softening "The idea is not
stupid" rewrites the standalone word to "unclear" (so the output contains
"unclear"), while "stupidity" — where "stupid" is only a prefix of a longer
word — is left unaltered. -/
theorem C6_whole_word :
    soften "The idea is not stupid".data = "The idea is not unclear".data ∧
    containsSub "unclear".data (soften "The idea is not stupid".data) = true ∧
    soften "stupidity".data = "stupidity".data := by
  refine ⟨by decide, by decide, by decide⟩

/-- C7: score normalization is the fixed deterministic rounding
⌊q·100 + 1/2⌋ (JS `Math.round`) of the upstream fraction times 100; in
particular an upstream score of 0.754 yields scorePct 75. -/
theorem C7_score_rounding :
    (∀ q : Rat, moderateUpstream (.parsed (some q)) =
      .ok (some (Int.floor (q * 100 + 1 / 2))) (some q)) ∧
    moderateUpstream (.parsed (some (754 / 1000))) =
      .ok (some 75) (some (754 / 1000)) := by
  refine ⟨fun q => rfl, ?_⟩
  show ModerateResponse.ok (some (jsRound (754 / 1000 * 100))) (some (754 / 1000))
      = .ok (some 75) (some (754 / 1000))
  have h : jsRound (754 / 1000 * 100) = 75 := by
    unfold jsRound
    rw [show (754 / 1000 * 100 + 1 / 2 : Rat) = 759 / 10 by norm_num]
    rw [Int.floor_eq_iff]
    constructor <;> norm_num
  rw [h]

/-- C8: the rewrite operation is a pure function of its two arguments —
identical text and tone always produce identical output. -/
theorem C8_deterministic (t₁ t₂ : List Char) (tone₁ tone₂ : Tone)
    (h1 : t₁ = t₂) (h2 : tone₁ = tone₂) :
    applyRewriteRules t₁ tone₁ = applyRewriteRules t₂ tone₂ := by
  rw [h1, h2]

theorem C8_deterministic_witness :
    applyRewriteRules "hi".data .calm = applyRewriteRules "hi".data .calm :=
  C8_deterministic "hi".data "hi".data .calm .calm rfl rfl

set_option maxHeartbeats 2000000 in
/-- C9: a matched aggressive word is replaced by the rule's replacement
text exactly as written (lower-case), regardless of the original casing:
"STUPID" and "Stupid" both become "unclear". -/
theorem C9_replacement_lowercase :
    soften "STUPID".data = "unclear".data ∧
    soften "Stupid".data = "unclear".data := by
  refine ⟨by decide, by decide⟩

/-- C10: moderation error classification is a substring test on the thrown
error's message: any message containing "connect" maps to 503
(ServiceUnavailable), any other — including the missing-payload format
error — maps to the generic 500. -/
theorem C10_connect_classification :
    (∀ m, containsSub "connect".data m = true →
      moderateCatch (some m) = .err 503 connectErrMsg) ∧
    (∀ m, containsSub "connect".data m = false →
      moderateCatch (some m) = .err 500 failedErrMsg) ∧
    moderateUpstream .missing = .err 500 failedErrMsg := by
  refine ⟨?_, ?_, by decide⟩
  · intro m h
    show (if containsSub "connect".data m = true then ModerateResponse.err 503 connectErrMsg
          else .err 500 failedErrMsg) = .err 503 connectErrMsg
    rw [if_pos h]
  · intro m h
    show (if containsSub "connect".data m = true then ModerateResponse.err 503 connectErrMsg
          else .err 500 failedErrMsg) = .err 500 failedErrMsg
    rw [h]
    rfl

theorem C10_connect_classification_witness :
    moderateCatch (some "failed to reconnect the cable".data) = .err 503 connectErrMsg ∧
    moderateCatch (some formatErrMsg) = .err 500 failedErrMsg :=
  ⟨C10_connect_classification.1 "failed to reconnect the cable".data (by decide),
   C10_connect_classification.2.1 formatErrMsg (by decide)⟩

end KindRewrite
